import Mathlib

/-!
Verification of the WMT15 agreement-score engine
(`scripts/compute_agreement_scores.py`).

Python strings are embedded as `List Char` (`Str`); the script only ever
splits on single-character separators, sorts strings by Python's
code-point lexicographic order, joins with a single character, and tests
single-character membership, so those four operations are modelled
directly.  Python's stable `list.sort()` is modelled by insertion sort
with respect to the same total order (the order on distinct strings is
antisymmetric, so every correct sort produces the same list).  Float
arithmetic in the kappa computation is modelled exactly over `ℚ`; the
one unguarded division (Python raises `ZeroDivisionError` there) is
modelled in an `Except` monad.
-/

/-- Python string, as its list of characters. -/
abbrev Str := List Char

/-- Python `s.split(sep)` for a single-character separator `sep`:
splits at every occurrence, keeping empty pieces (`"".split(sep) == [""]`). -/
def pysplit (sep : Char) : Str → List Str
  | [] => [[]]
  | c :: rest =>
    match pysplit sep rest with
    | [] => [[c]]
    | h :: t => if c = sep then [] :: h :: t else (c :: h) :: t

/-- Python's `<` on strings: code-point lexicographic order. -/
def lexLt : Str → Str → Bool
  | _, [] => false
  | [], _ :: _ => true
  | a :: as, b :: bs => decide (a < b) || (decide (a = b) && lexLt as bs)

/-- Python string comparison `a <= b`, i.e. not `b < a`. -/
def lexLe (a b : Str) : Bool := !(lexLt b a)

/-- One step of insertion sort with respect to the boolean order `le`. -/
def insertLe (le : α → α → Bool) (x : α) : List α → List α
  | [] => [x]
  | y :: ys => if le x y then x :: y :: ys else y :: insertLe le x ys

/-- Python's `list.sort()` with respect to the boolean order `le`,
modelled as insertion sort (which agrees with any stable sort for the
antisymmetric total orders used here). -/
def pysort (le : α → α → Bool) (l : List α) : List α := l.foldr (insertLe le) []

/-- Python `sep.join(parts)` for a single-character separator. -/
def pyjoin (sep : Char) (parts : List Str) : Str := List.intercalate [sep] parts

/-- The separator scan of `extract_system_ids_from_label`: split on the
first of `>`, `<`, `=` (in that check order) occurring in the label; if
none occurs, `label_systems` stays empty. -/
def splitLabel (label : Str) : List Str :=
  if label.contains '>' then pysplit '>' label
  else if label.contains '<' then pysplit '<' label
  else if label.contains '=' then pysplit '=' label
  else []

/-- The per-operand cleaning of `extract_system_ids_from_label`: split
the operand on `+`, sort the sub-identifiers, rejoin with `+`. -/
def cleanOperand (s : Str) : Str := pyjoin '+' (pysort lexLe (pysplit '+' s))

/-- The function `extract_system_ids_from_label` from the source: split
on the first separator found, sort the raw operand strings
(`label_systems.sort()`), then clean each operand. -/
def extract_system_ids_from_label (label : Str) : List Str :=
  (pysort lexLe (splitLabel label)).map cleanOperand

/-- Python `set(l1) == set(l2)` for lists of strings. -/
def setEq (l1 l2 : List Str) : Bool :=
  l1.all (fun x => l2.contains x) && l2.all (fun x => l1.contains x)

/-- Python `itertools.combinations(l, 2)`: all unordered pairs of
elements of `l`, taken by position. -/
def pairs2 : List α → List (α × α)
  | [] => []
  | x :: xs => xs.map (fun y => (x, y)) ++ pairs2 xs

/-- A judgment triple `(coder_id, item_id, label)`, as built by the
row loop of the script. -/
abbrev Judgment := Str × Str × Str

/-- The keys of an association sequence in order of first occurrence;
models the iteration order of a Python `defaultdict` filled by append. -/
def firstKeys [DecidableEq κ] (key : α → κ) : List α → List κ
  | [] => []
  | x :: xs => key x :: (firstKeys key xs).filter (fun k => decide (k ≠ key x))

/-- Grouping `_d = defaultdict(list); for x in l: _d[key x].append(val x)`,
then iterating `_d.items()`: groups in first-occurrence key order, values
in original order. -/
def groupVals [DecidableEq κ] (key : α → κ) (val : α → β) (l : List α) :
    List (κ × List β) :=
  (firstKeys key l).map (fun k => (k, (l.filter (fun x => decide (key x = k))).map val))

/-- The four agreement counts `(identical, comparable, ties, total)`. -/
abbrev Counts := ℕ × ℕ × ℕ × ℕ

/-- Elementwise sum of two count tuples. -/
def addCounts (a b : Counts) : Counts :=
  (a.1 + b.1, a.2.1 + b.2.1, a.2.2.1 + b.2.2.1, a.2.2.2 + b.2.2.2)

/-- The body of the aggregation loop of `compute_agreement_scores` for
one item's label list: count the labels into `ties_total`, the labels
containing `=` into `ties_cnt`, and, when there are two or more labels,
fold over all unordered label pairs incrementing `comparable` when the
normalized participant sets agree and additionally `identical` when the
raw labels are equal. -/
def groupCounts (item_labels : List Str) : Counts :=
  let ties_total := item_labels.length
  let ties_cnt := item_labels.countP (fun l => l.contains '=')
  if 1 < item_labels.length then
    let pairCnt := (pairs2 item_labels).foldl
      (fun (acc : ℕ × ℕ) p =>
        if setEq (extract_system_ids_from_label p.1)
            (extract_system_ids_from_label p.2) then
          (if p.1 = p.2 then (acc.1 + 1, acc.2 + 1) else (acc.1, acc.2 + 1))
        else acc)
      ((0 : ℕ), (0 : ℕ))
    (pairCnt.1, pairCnt.2, ties_cnt, ties_total)
  else (0, 0, ties_cnt, ties_total)

/-- The try-block of `compute_agreement_scores`: group the triples by
item id (`_by_items`) and accumulate the four counts over the groups. -/
def aggCounts (data : List Judgment) : Counts :=
  let by_items := groupVals (fun j => j.2.1) (fun j => j.2.2) data
  by_items.foldl (fun acc g => addCounts acc (groupCounts g.2)) (0, 0, 0, 0)

/-- The `try`/`except` wrapper of `compute_agreement_scores`: a raised
exception (`Except.error`) is swallowed and the function falls off the
end, returning Python `None`; a completed body returns its counts. -/
def computeCaught (body : Except Unit Counts) : Option Counts :=
  match body with
  | Except.ok c => some c
  | Except.error _ => none

/-- Outcome of the try-block on the given data.  In this embedding the
body is total, so it always completes with `aggCounts data`. -/
def aggBody (data : List Judgment) : Except Unit Counts :=
  Except.ok (aggCounts data)

/-- The function `compute_agreement_scores` from the source: the
try-block guarded by the catch-all `except` clause. -/
def compute_agreement_scores (data : List Judgment) : Option Counts :=
  computeCaught (aggBody data)

/-- Item id `'{0}.{1}.{2}'.format(segment_id, systems[a], systems[b])`. -/
def itemId (seg a b : Str) : Str := seg ++ '.' :: a ++ '.' :: b

/-- The ternary label of the row loop: `a>b` when rank(a) is numerically
lower, `a<b` when higher, `a=b` when equal. -/
def rankLabel (sa sb : Str) (ra rb : Int) : Str :=
  if ra < rb then sa ++ '>' :: sb
  else if rb < ra then sa ++ '<' :: sb
  else sa ++ '=' :: sb

/-- The per-row loop of `__main__`: rows with fewer than two systems are
dropped; otherwise every unordered pair of slot indices yields a judgment
unless either rank is the skip sentinel `-1`. -/
def encodeRow (seg judge : Str) (systems : List Str) (rankings : List Int) :
    List Judgment :=
  if systems.length < 2 then []
  else
    (pairs2 (List.range systems.length)).filterMap (fun ab =>
      if rankings.getD ab.1 (-1) = -1 ∨ rankings.getD ab.2 (-1) = -1 then none
      else
        some (judge,
          itemId seg (systems.getD ab.1 []) (systems.getD ab.2 []),
          rankLabel (systems.getD ab.1 []) (systems.getD ab.2 [])
            (rankings.getD ab.1 (-1)) (rankings.getD ab.2 (-1))))

/-- Modelled from the spec (§4.2) for the refinement proof of the
encoder: iterate over unordered pairs of `(system, rank)` entries
directly, skip a pair when either rank is the sentinel, and derive the
ternary label from the rank comparison. -/
def encodeRowSpec (seg judge : Str) (entries : List (Str × Int)) :
    List Judgment :=
  if entries.length < 2 then []
  else
    (pairs2 entries).filterMap (fun p =>
      if p.1.2 = -1 ∨ p.2.2 = -1 then none
      else some (judge, itemId seg p.1.1 p.2.1, rankLabel p.1.1 p.2.1 p.1.2 p.2.2))

/-- Python `x or 1` for a nonnegative integer `x`. -/
def orOne (n : ℕ) : ℕ := if n = 0 then 1 else n

/-- Python float division, which raises `ZeroDivisionError` on a zero
denominator; modelled exactly over `ℚ`. -/
def pydiv (a b : ℚ) : Except String ℚ :=
  if b = 0 then Except.error "ZeroDivisionError" else Except.ok (a / b)

/-- The per-language-pair tail of `__main__`: from the summed counts
compute `pA = identical / float(comparable or 1)`,
`pTies = ties / float(ties_total or 1)`, `pNoTies = 1 - pTies`,
`pE = pTies**2 + (pNoTies/2)**2 + (pNoTies/2)**2`, then
`kappa = (pA - pE) / float(1.0 - pE)` (an unguarded division), and only
then skip the pair when `comparable == 0`; otherwise report
`(pA, pE, kappa)`.  The two guarded divisions cannot raise because
`x or 1` is never zero. -/
def processPair (c : Counts) : Except String (Option (ℚ × ℚ × ℚ)) :=
  let pA : ℚ := (c.1 : ℚ) / ((orOne c.2.1 : ℕ) : ℚ)
  let pTies : ℚ := (c.2.2.1 : ℚ) / ((orOne c.2.2.2 : ℕ) : ℚ)
  let pNoTies : ℚ := 1 - pTies
  let pE : ℚ := pTies ^ 2 + (pNoTies / 2) ^ 2 + (pNoTies / 2) ^ 2
  match pydiv (pA - pE) (1 - pE) with
  | Except.error e => Except.error e
  | Except.ok kappa =>
    if c.2.1 = 0 then Except.ok none else Except.ok (some (pA, pE, kappa))

/-- Modelled from the claim wording of the final statistic:
`pTies = ties / ties_total` (`0` if `ties_total` is `0`),
`pNoTies = 1 - pTies`, `pE = pTies² + (pNoTies/2)² + (pNoTies/2)²`,
`pA = identical / comparable`, `kappa = (pA - pE) / (1 - pE)`. -/
def specStats (idn comp ties tot : ℕ) : ℚ × ℚ × ℚ :=
  let pA : ℚ := (idn : ℚ) / (comp : ℚ)
  let pTies : ℚ := if tot = 0 then 0 else (ties : ℚ) / (tot : ℚ)
  let pNoTies : ℚ := 1 - pTies
  let pE : ℚ := pTies ^ 2 + (pNoTies / 2) ^ 2 + (pNoTies / 2) ^ 2
  (pA, pE, (pA - pE) / (1 - pE))

/-- The language-code lookup table of the source. -/
def LANGUAGE_CODE_TO_NAME : List (String × String) :=
  [("ces", "Czech"), ("deu", "German"), ("fra", "French"), ("fre", "French"),
   ("esn", "Spanish"), ("fin", "Finnish"), ("rus", "Russian"),
   ("hin", "Hindi"), ("eng", "English")]

/-- The hard-coded canonical language-pair tuple of the source. -/
def language_pairs : List String :=
  ["Czech-English", "English-Czech", "German-English", "English-German",
   "Spanish-English", "English-Spanish", "French-English", "English-French",
   "Russian-English", "English-Russian", "Finnish-English", "English-Finnish"]

/-- Elementwise sum of the per-unit counts, as in
`average_scores[i] = sum(x[i] for x in scores)`. -/
def sumScores (scores : List Counts) : Counts :=
  scores.foldl addCounts (0, 0, 0, 0)

/-- The reporting loop of `__main__` over the canonical language-pair
tuple: for each pair, aggregate every dispatched unit of work (in this
embedding each unit's `compute_agreement_scores` completes with its
counts), sum the counts, and run the kappa computation; a raised
`ZeroDivisionError` aborts the whole run. -/
def runPairs (resultsData : String → List (List Judgment)) :
    Except String (List (String × (ℚ × ℚ × ℚ))) :=
  language_pairs.foldlM
    (fun acc lp =>
      match processPair (sumScores ((resultsData lp).map aggCounts)) with
      | Except.error e => Except.error e
      | Except.ok none => Except.ok acc
      | Except.ok (some stats) => Except.ok (acc ++ [(lp, stats)]))
    []

/-- Python `str(n)` for a natural number: its decimal digit characters. -/
def natDigits (n : ℕ) : Str :=
  if n = 0 then ['0']
  else ((Nat.digits 10 n).reverse).map (fun d => Char.ofNat (48 + d))

/-- The renaming step of the intra-annotator branch: for each of the
coder's items, relabel the `d`-th of its judgments with the synthetic
coder id `'{0}-{1}'.format(coder, d)`. -/
def renameCoder (coder : Str) (items : List (Str × List Str)) : List Judgment :=
  (items.map (fun it =>
    it.2.enum.map (fun dl => (coder ++ '-' :: natDigits dl.1, it.1, dl.2)))).flatten

/-- The intra-annotator branch of `__main__` for one segment's
judgments: group by coder; for each coder group the labels by item id;
skip the coder when every item has fewer than two of their judgments;
otherwise submit the renamed judgments as one unit of work. -/
def intraUnits (js : List Judgment) : List (List Judgment) :=
  (groupVals (fun j => j.1) (fun j => j) js).filterMap (fun cg =>
    if (groupVals (fun j => j.2.1) (fun j => j.2.2) cg.2).all
        (fun it => it.2.length < 2) then none
    else some (renameCoder cg.1 (groupVals (fun j => j.2.1) (fun j => j.2.2) cg.2)))

/-- The intra-annotator units are passed to the same
`compute_agreement_scores` used for inter-annotator agreement. -/
def intraResults (js : List Judgment) : List (Option Counts) :=
  (intraUnits js).map compute_agreement_scores

/-! ### Claims C5, C6, C10: the final statistic -/

theorem orOne_of_ne {n : ℕ} (h : n ≠ 0) : orOne n = n := by simp [orOne, h]

/-- Claim C10: whenever every summed label is a tie (`ties = ties_total`
with `ties_total > 0`), `pTies = 1` and `pE = 1`, so the unguarded
division `kappa = (pA - pE) / (1.0 - pE)` raises `ZeroDivisionError`;
this happens before the `comparable == 0` skip check is reached, for
every value of `identical` and `comparable` (including `comparable = 0`). -/
theorem claim_c10 (idn comp ties : ℕ) (h : 0 < ties) :
    processPair (idn, comp, ties, ties) = Except.error "ZeroDivisionError" := by
  have htz : ties ≠ 0 := Nat.pos_iff_ne_zero.mp h
  have hration : ((ties : ℚ) / ((orOne ties : ℕ) : ℚ)) = 1 := by
    rw [orOne_of_ne htz]
    exact div_self (by exact_mod_cast htz)
  simp only [processPair, pydiv, hration]
  norm_num

theorem claim_c10_witness :
    processPair (1, 2, 3, 3) = Except.error "ZeroDivisionError" :=
  claim_c10 1 2 3 (by decide)

/-- Claim C5: for summed counts with `comparable ≠ 0`, `ties ≤
ties_total` (an invariant of the aggregator) and not every label a tie,
the reported statistic agrees with the spec formulas: `pA = identical /
comparable`, `pTies = ties / ties_total` (`0` when `ties_total = 0`),
`pE = pTies² + (pNoTies/2)² + (pNoTies/2)²`, `kappa = (pA - pE) / (1 -
pE)`. -/
theorem claim_c5 (idn comp ties tot : ℕ) (h1 : comp ≠ 0) (h2 : ties ≤ tot)
    (h3 : ties = tot → tot = 0) :
    processPair (idn, comp, ties, tot) =
      Except.ok (some (specStats idn comp ties tot)) := by
  have hA : ((orOne comp : ℕ) : ℚ) = (comp : ℚ) := by rw [orOne_of_ne h1]
  by_cases ht : tot = 0
  · have hties : ties = 0 := Nat.le_zero.mp (ht ▸ h2)
    subst ht
    subst hties
    simp only [processPair, specStats, pydiv, orOne, hA]
    norm_num
    simp [h1]
  · have hlt : ties < tot := lt_of_le_of_ne h2 (fun he => ht (h3 he))
    have hB : ((orOne tot : ℕ) : ℚ) = (tot : ℚ) := by rw [orOne_of_ne ht]
    have htotq : (0 : ℚ) < (tot : ℚ) := by exact_mod_cast Nat.pos_of_ne_zero ht
    have ht0 : (0 : ℚ) ≤ (ties : ℚ) / (tot : ℚ) := by positivity
    have ht1 : (ties : ℚ) / (tot : ℚ) < 1 :=
      (div_lt_one htotq).mpr (by exact_mod_cast hlt)
    have hpE :
        ((ties : ℚ) / (tot : ℚ)) ^ 2 + ((1 - (ties : ℚ) / (tot : ℚ)) / 2) ^ 2 +
          ((1 - (ties : ℚ) / (tot : ℚ)) / 2) ^ 2 < 1 := by
      nlinarith [ht0, ht1]
    have hne :
        1 - (((ties : ℚ) / (tot : ℚ)) ^ 2 +
          ((1 - (ties : ℚ) / (tot : ℚ)) / 2) ^ 2 +
          ((1 - (ties : ℚ) / (tot : ℚ)) / 2) ^ 2) ≠ 0 :=
      sub_ne_zero.mpr (ne_of_gt hpE)
    simp only [processPair, specStats, pydiv, hA, hB, if_neg ht]
    rw [if_neg hne]
    simp [h1]

theorem claim_c5_witness :
    processPair (2, 4, 1, 4) = Except.ok (some (specStats 2 4 1 4)) :=
  claim_c5 2 4 1 4 (by decide) (by decide) (by decide)

/-- Claim C6, counterexample: for summed counts `(identical = 0,
comparable = 0, ties = 1, ties_total = 1)` — one item with a single tie
label — the language pair is not skipped gracefully: the kappa division
raises `ZeroDivisionError` before the `comparable == 0` check, so the
claimed unconditional skip ("regardless of the other counts") is false. -/
theorem claim_c6_counterexample :
    processPair (0, 0, 1, 1) ≠ Except.ok none := by
  have h : processPair (0, 0, 1, 1) = Except.error "ZeroDivisionError" := by
    simp only [processPair, pydiv, orOne]
    norm_num
  rw [h]
  intro hcontra
  exact Except.noConfusion hcontra

/-- Claim C6 (amended): for summed counts with `comparable = 0`,
`identical ≤ comparable` and `ties ≤ ties_total` (invariants of the
aggregator), and provided not every label is a tie (`ties < ties_total`
or `ties_total = 0`), `pA` is computed as `identical / 1 = 0` and the
language pair is skipped from the output (no result line); when every
label is a tie the run instead crashes with `ZeroDivisionError` (claim
C10). -/
theorem claim_c6 (idn comp ties tot : ℕ) (hc : comp = 0) (hi : idn ≤ comp)
    (h2 : ties ≤ tot) (h3 : ties < tot ∨ tot = 0) :
    processPair (idn, comp, ties, tot) = Except.ok none ∧
    ((idn : ℚ) / ((orOne comp : ℕ) : ℚ)) = 0 := by
  have hidn : idn = 0 := Nat.le_zero.mp (hc ▸ hi)
  subst hidn
  subst hc
  constructor
  · by_cases ht : tot = 0
    · have hties : ties = 0 := Nat.le_zero.mp (ht ▸ h2)
      subst ht
      subst hties
      simp only [processPair, pydiv, orOne]
      norm_num
    · have hlt : ties < tot := h3.resolve_right ht
      have hB : ((orOne tot : ℕ) : ℚ) = (tot : ℚ) := by rw [orOne_of_ne ht]
      have htotq : (0 : ℚ) < (tot : ℚ) := by exact_mod_cast Nat.pos_of_ne_zero ht
      have ht0 : (0 : ℚ) ≤ (ties : ℚ) / (tot : ℚ) := by positivity
      have ht1 : (ties : ℚ) / (tot : ℚ) < 1 :=
        (div_lt_one htotq).mpr (by exact_mod_cast hlt)
      have hne :
          1 - (((ties : ℚ) / (tot : ℚ)) ^ 2 +
            ((1 - (ties : ℚ) / (tot : ℚ)) / 2) ^ 2 +
            ((1 - (ties : ℚ) / (tot : ℚ)) / 2) ^ 2) ≠ 0 := by
        nlinarith [ht0, ht1]
      simp only [processPair, pydiv, hB]
      rw [if_neg hne]
      norm_num
  · simp

theorem claim_c6_witness :
    processPair (0, 0, 0, 5) = Except.ok none :=
  (claim_c6 0 0 0 5 rfl (by decide) (by decide) (Or.inl (by decide))).1

/-! ### Lemmas about the string operations -/

theorem contains_true {s : Str} {c : Char} : s.contains c = true ↔ c ∈ s := by
  simp [List.contains, List.elem_iff]

theorem contains_false {s : Str} {c : Char} (h : c ∉ s) : s.contains c = false := by
  cases hc : s.contains c with
  | false => rfl
  | true => exact absurd (contains_true.mp hc) h

theorem pysplit_no_sep {sep : Char} : ∀ {s : Str}, sep ∉ s → pysplit sep s = [s]
  | [], _ => rfl
  | c :: rest, h => by
    have hc : c ≠ sep := fun hcs => h (hcs ▸ List.mem_cons_self c rest)
    have hr : sep ∉ rest := fun hm => h (List.mem_cons_of_mem c hm)
    simp [pysplit, pysplit_no_sep hr, hc]

theorem pysplit_append {sep : Char} {b : Str} (hb : sep ∉ b) :
    ∀ {a : Str}, sep ∉ a → pysplit sep (a ++ sep :: b) = [a, b]
  | [], _ => by simp [pysplit, pysplit_no_sep hb]
  | c :: a, h => by
    have hc : c ≠ sep := fun hcs => h (hcs ▸ List.mem_cons_self c a)
    have ha : sep ∉ a := fun hm => h (List.mem_cons_of_mem c hm)
    simp [pysplit, pysplit_append hb ha, hc]

theorem lexLt_asymm : ∀ {a b : Str}, lexLt a b = true → lexLt b a = false
  | _ :: _, [], h => by simp [lexLt] at h
  | [], [], h => by simp [lexLt] at h
  | [], _ :: _, _ => by simp [lexLt]
  | a :: as, b :: bs, h => by
    simp only [lexLt, Bool.or_eq_true, Bool.and_eq_true, decide_eq_true_eq] at h
    rcases h with h | ⟨hab, h⟩
    · have h1 : decide (b < a) = false := decide_eq_false (lt_asymm h)
      have h2 : decide (b = a) = false :=
        decide_eq_false (fun he => absurd (he ▸ h) (lt_irrefl b))
      simp [lexLt, h1, h2]
    · subst hab
      simp [lexLt, lt_irrefl, lexLt_asymm h]

theorem lexLt_connex : ∀ {a b : Str}, a ≠ b → lexLt a b = true ∨ lexLt b a = true
  | [], [], h => absurd rfl h
  | [], _ :: _, _ => Or.inl (by simp [lexLt])
  | _ :: _, [], _ => Or.inr (by simp [lexLt])
  | a :: as, b :: bs, h => by
    rcases lt_trichotomy a b with hab | hab | hab
    · exact Or.inl (by simp [lexLt, hab])
    · subst hab
      have has : as ≠ bs := fun he => h (he ▸ rfl)
      rcases lexLt_connex has with hl | hl
      · exact Or.inl (by simp [lexLt, hl])
      · exact Or.inr (by simp [lexLt, hl])
    · exact Or.inr (by simp [lexLt, hab])

theorem lexLe_total (a b : Str) : lexLe a b = true ∨ lexLe b a = true := by
  by_cases hab : lexLt b a = true
  · exact Or.inr (by simp [lexLe, lexLt_asymm hab])
  · exact Or.inl (by simp [lexLe, Bool.eq_false_iff.mpr hab, -Bool.not_eq_true])

theorem lexLe_antisymm {a b : Str} (h1 : lexLe a b = true) (h2 : lexLe b a = true) :
    a = b := by
  by_contra hne
  rcases lexLt_connex hne with hl | hl
  · simp [lexLe, hl] at h2
  · simp [lexLe, hl] at h1

theorem lexLe_of_lexLt {a b : Str} (h : lexLt a b = true) : lexLe a b = true := by
  simp [lexLe, lexLt_asymm h]

theorem pysort_single (le : α → α → Bool) (x : α) : pysort le [x] = [x] := rfl

theorem pysort_pair (le : α → α → Bool) (a b : α) :
    pysort le [a, b] = if le a b then [a, b] else [b, a] := by
  simp [pysort, insertLe]

theorem pysort_pair_comm (a b : Str) :
    pysort lexLe [a, b] = pysort lexLe [b, a] := by
  rw [pysort_pair, pysort_pair]
  by_cases hab : lexLe a b = true
  · by_cases hba : lexLe b a = true
    · rw [if_pos hab, if_pos hba, lexLe_antisymm hab hba]
    · rw [if_pos hab, if_neg hba]
  · by_cases hba : lexLe b a = true
    · rw [if_neg hab, if_pos hba]
    · rcases lexLe_total a b with h | h
      · exact absurd h hab
      · exact absurd h hba

theorem pysort_pair_sorted (a b : Str) :
    ∃ x y, pysort lexLe [a, b] = [x, y] ∧ lexLe x y = true := by
  rw [pysort_pair]
  by_cases hab : lexLe a b = true
  · exact ⟨a, b, by rw [if_pos hab], hab⟩
  · refine ⟨b, a, by rw [if_neg hab], ?_⟩
    rcases lexLe_total a b with h | h
    · exact absurd h hab
    · exact h

theorem pysort_pair_of_le {a b : Str} (h : lexLe a b = true) :
    pysort lexLe [a, b] = [a, b] := by rw [pysort_pair, if_pos h]

theorem cleanOperand_no_plus {s : Str} (h : '+' ∉ s) : cleanOperand s = s := by
  simp [cleanOperand, pysplit_no_sep h, pysort_single, pyjoin, List.intercalate]

/-- Absence of a character in the three label shapes built from
separator-free operands. -/
theorem not_mem_label {c sep : Char} {a b : Str}
    (ha : c ∉ a) (hb : c ∉ b) (hsep : c ≠ sep) : c ∉ a ++ sep :: b := by
  intro hm
  rcases List.mem_append.mp hm with h | h
  · exact ha h
  · rcases List.mem_cons.mp h with h | h
    · exact hsep h
    · exact hb h

/-- Operand strings free of the three separator characters. -/
def NoSeps (s : Str) : Prop := '>' ∉ s ∧ '<' ∉ s ∧ '=' ∉ s

theorem splitLabel_gt {a b : Str} (ha : NoSeps a) (hb : NoSeps b) :
    splitLabel (a ++ '>' :: b) = [a, b] := by
  have hmem : (a ++ '>' :: b).contains '>' = true :=
    contains_true.mpr (List.mem_append.mpr (Or.inr (List.mem_cons_self _ _)))
  simp only [splitLabel, hmem, if_true]
  exact pysplit_append hb.1 ha.1

theorem splitLabel_lt {a b : Str} (ha : NoSeps a) (hb : NoSeps b) :
    splitLabel (a ++ '<' :: b) = [a, b] := by
  have hgt : (a ++ '<' :: b).contains '>' = false :=
    contains_false (not_mem_label ha.1 hb.1 (by decide))
  have hmem : (a ++ '<' :: b).contains '<' = true :=
    contains_true.mpr (List.mem_append.mpr (Or.inr (List.mem_cons_self _ _)))
  simp only [splitLabel, hgt, hmem, if_true, Bool.false_eq_true, if_false]
  exact pysplit_append hb.2.1 ha.2.1

theorem splitLabel_eq {a b : Str} (ha : NoSeps a) (hb : NoSeps b) :
    splitLabel (a ++ '=' :: b) = [a, b] := by
  have hgt : (a ++ '=' :: b).contains '>' = false :=
    contains_false (not_mem_label ha.1 hb.1 (by decide))
  have hlt : (a ++ '=' :: b).contains '<' = false :=
    contains_false (not_mem_label ha.2.1 hb.2.1 (by decide))
  have hmem : (a ++ '=' :: b).contains '=' = true :=
    contains_true.mpr (List.mem_append.mpr (Or.inr (List.mem_cons_self _ _)))
  simp only [splitLabel, hgt, hlt, hmem, if_true, Bool.false_eq_true, if_false]
  exact pysplit_append hb.2.2 ha.2.2

theorem extract_gt {a b : Str} (ha : NoSeps a) (hb : NoSeps b) :
    extract_system_ids_from_label (a ++ '>' :: b) =
      (pysort lexLe [a, b]).map cleanOperand := by
  rw [extract_system_ids_from_label, splitLabel_gt ha hb]

theorem extract_lt {a b : Str} (ha : NoSeps a) (hb : NoSeps b) :
    extract_system_ids_from_label (a ++ '<' :: b) =
      (pysort lexLe [a, b]).map cleanOperand := by
  rw [extract_system_ids_from_label, splitLabel_lt ha hb]

theorem extract_eq_sep {a b : Str} (ha : NoSeps a) (hb : NoSeps b) :
    extract_system_ids_from_label (a ++ '=' :: b) =
      (pysort lexLe [a, b]).map cleanOperand := by
  rw [extract_system_ids_from_label, splitLabel_eq ha hb]

/-- Cleaning is the identity on the sorted pair when neither operand
contains a `+`. -/
theorem map_clean_sort2 {a b : Str} (ha : '+' ∉ a) (hb : '+' ∉ b) :
    (pysort lexLe [a, b]).map cleanOperand = pysort lexLe [a, b] := by
  rw [pysort_pair]
  by_cases h : lexLe a b = true
  · simp [h, cleanOperand_no_plus ha, cleanOperand_no_plus hb]
  · simp [h, cleanOperand_no_plus ha, cleanOperand_no_plus hb]

theorem extract_plain_gt {a b : Str} (ha : NoSeps a) (ha2 : '+' ∉ a)
    (hb : NoSeps b) (hb2 : '+' ∉ b) :
    extract_system_ids_from_label (a ++ '>' :: b) = pysort lexLe [a, b] := by
  rw [extract_gt ha hb, map_clean_sort2 ha2 hb2]

theorem extract_plain_lt {a b : Str} (ha : NoSeps a) (ha2 : '+' ∉ a)
    (hb : NoSeps b) (hb2 : '+' ∉ b) :
    extract_system_ids_from_label (a ++ '<' :: b) = pysort lexLe [a, b] := by
  rw [extract_lt ha hb, map_clean_sort2 ha2 hb2]

theorem extract_plain_eq {a b : Str} (ha : NoSeps a) (ha2 : '+' ∉ a)
    (hb : NoSeps b) (hb2 : '+' ∉ b) :
    extract_system_ids_from_label (a ++ '=' :: b) = pysort lexLe [a, b] := by
  rw [extract_eq_sep ha hb, map_clean_sort2 ha2 hb2]

/-! ### Claims C2 and C3: the Label Normalizer -/

/-- Claim C2, counterexample: for the label `c+a>b` the Label Normalizer
returns `["b", "a+c"]`, which is not a lexically sorted pair of the
cleaned operand strings (`"a+c" < "b"`), because the source sorts the
raw operand strings before cleaning them. -/
theorem claim_c2_counterexample :
    extract_system_ids_from_label ['c', '+', 'a', '>', 'b'] =
      [['b'], ['a', '+', 'c']] ∧
    lexLe ['b'] ['a', '+', 'c'] = false := by decide

/-- Claim C2 (amended): for every label built from two operands free of
the separators `>`, `<`, `=`, the Label Normalizer splits on the first
separator found in the check order `>`, `<`, `=`, sorts the two raw
operand strings lexically, and only then cleans each operand (splitting
it on `+`, sorting the sub-identifiers lexically and rejoining with
`+`); the output is the cleaned operands in the raw sort order, which
need not be lexically sorted as cleaned strings. -/
theorem claim_c2 (a b : Str) (ha : NoSeps a) (hb : NoSeps b) :
    extract_system_ids_from_label (a ++ '>' :: b) =
      (pysort lexLe [a, b]).map cleanOperand ∧
    extract_system_ids_from_label (a ++ '<' :: b) =
      (pysort lexLe [a, b]).map cleanOperand ∧
    extract_system_ids_from_label (a ++ '=' :: b) =
      (pysort lexLe [a, b]).map cleanOperand :=
  ⟨extract_gt ha hb, extract_lt ha hb, extract_eq_sep ha hb⟩

theorem claim_c2_witness :
    extract_system_ids_from_label (['b'] ++ '>' :: ['a']) =
      (pysort lexLe [['b'], ['a']]).map cleanOperand :=
  (claim_c2 ['b'] ['a'] ⟨by decide, by decide, by decide⟩ ⟨by decide, by decide, by decide⟩).1

/-- Claim C3: for system identifiers `a`, `b` free of the separator
characters (`>`, `<`, `=` and the tie-group joiner `+`), the Label
Normalizer is commutative — `normalize (a>b) = normalize (b<a) =
normalize (a=b)` — and stable: re-normalizing the normalized pair,
rejoined with any of the three separators, yields the same pair. -/
theorem claim_c3 (a b : Str) (ha : NoSeps a) (ha2 : '+' ∉ a)
    (hb : NoSeps b) (hb2 : '+' ∉ b) :
    extract_system_ids_from_label (a ++ '>' :: b) =
      extract_system_ids_from_label (b ++ '<' :: a) ∧
    extract_system_ids_from_label (a ++ '>' :: b) =
      extract_system_ids_from_label (a ++ '=' :: b) ∧
    ∀ x y, extract_system_ids_from_label (a ++ '>' :: b) = [x, y] →
      extract_system_ids_from_label (x ++ '>' :: y) = [x, y] ∧
      extract_system_ids_from_label (x ++ '<' :: y) = [x, y] ∧
      extract_system_ids_from_label (x ++ '=' :: y) = [x, y] := by
  refine ⟨?_, ?_, ?_⟩
  · rw [extract_plain_gt ha ha2 hb hb2, extract_plain_lt hb hb2 ha ha2,
      pysort_pair_comm]
  · rw [extract_plain_gt ha ha2 hb hb2, extract_plain_eq ha ha2 hb hb2]
  · intro x y hxy
    rw [extract_plain_gt ha ha2 hb hb2, pysort_pair] at hxy
    by_cases h : lexLe a b = true
    · rw [if_pos h] at hxy
      injection hxy with h1 h2
      injection h2 with h2 h3
      subst h1
      subst h2
      have hsort : pysort lexLe [a, b] = [a, b] := pysort_pair_of_le h
      exact ⟨by rw [extract_plain_gt ha ha2 hb hb2, hsort],
        by rw [extract_plain_lt ha ha2 hb hb2, hsort],
        by rw [extract_plain_eq ha ha2 hb hb2, hsort]⟩
    · rw [if_neg h] at hxy
      injection hxy with h1 h2
      injection h2 with h2 h3
      subst h1
      subst h2
      have hba : lexLe b a = true := by
        rcases lexLe_total a b with hh | hh
        · exact absurd hh h
        · exact hh
      have hsort : pysort lexLe [b, a] = [b, a] := pysort_pair_of_le hba
      exact ⟨by rw [extract_plain_gt hb hb2 ha ha2, hsort],
        by rw [extract_plain_lt hb hb2 ha ha2, hsort],
        by rw [extract_plain_eq hb hb2 ha ha2, hsort]⟩

/-! ### Claim C1: the Agreement Aggregator counts -/

/-- The accumulator loop over label pairs counts exactly the pairs
satisfying the outer test into the second component and the pairs
satisfying both tests into the first. -/
theorem foldl_pair_counts (q r : α → Prop) [DecidablePred q] [DecidablePred r] :
    ∀ (l : List α) (i c : ℕ),
    l.foldl
      (fun (acc : ℕ × ℕ) p =>
        if q p then
          (if r p then (acc.1 + 1, acc.2 + 1) else (acc.1, acc.2 + 1))
        else acc) (i, c)
      = (i + l.countP (fun p => decide (q p) && decide (r p)),
         c + l.countP (fun p => decide (q p)))
  | [], i, c => by simp
  | p :: l, i, c => by
    simp only [List.foldl_cons, List.countP_cons]
    by_cases hq : q p
    · by_cases hr : r p
      · rw [if_pos hq, if_pos hr, foldl_pair_counts q r l (i + 1) (c + 1)]
        simp [hq, hr, Prod.mk.injEq]
        omega
      · rw [if_pos hq, if_neg hr, foldl_pair_counts q r l i (c + 1)]
        simp [hq, hr, Prod.mk.injEq]
        omega
    · rw [if_neg hq, foldl_pair_counts q r l i c]
      simp [hq, Prod.mk.injEq]

theorem firstKeys_of_const [DecidableEq κ] {key : α → κ} {k : κ} :
    ∀ {l : List α}, (∀ x ∈ l, key x = k) → l ≠ [] → firstKeys key l = [k]
  | [], _, hne => absurd rfl hne
  | x :: xs, hall, _ => by
    have hx : key x = k := hall x (List.mem_cons_self x xs)
    cases xs with
    | nil => simp [firstKeys, hx]
    | cons y ys =>
      have hrest : firstKeys key (y :: ys) = [k] :=
        firstKeys_of_const (fun z hz => hall z (List.mem_cons_of_mem x hz))
          (List.cons_ne_nil y ys)
      show key x :: (firstKeys key (y :: ys)).filter (fun kk => decide (kk ≠ key x)) = [k]
      rw [hrest, hx]
      simp

theorem groupVals_const_key [DecidableEq κ] {key : α → κ} {k : κ} (val : α → β)
    {l : List α} (hall : ∀ x ∈ l, key x = k) (hne : l ≠ []) :
    groupVals key val l = [(k, l.map val)] := by
  unfold groupVals
  rw [firstKeys_of_const hall hne]
  have hfil : l.filter (fun x => decide (key x = k)) = l :=
    List.filter_eq_self.mpr (fun a ha => by simp [hall a ha])
  simp [hfil]

theorem pairs2_length : ∀ (l : List α), (pairs2 l).length = l.length.choose 2
  | [] => rfl
  | x :: xs => by
    simp only [pairs2, List.length_append, List.length_map, pairs2_length xs,
      List.length_cons]
    rw [Nat.choose_succ_succ, Nat.choose_one_right]

/-- Claim C1: on the judgments of a single item with `k ≥ 2` labels, the
Agreement Aggregator returns `identical` = the number of unordered label
pairs that are comparable (equal normalized participant sets) and have
exactly equal raw labels, `comparable` = the number of pairs with equal
normalized participant sets, `ties` = the number of labels containing
`=`, and `total` = the number of labels; the pair list has `C(k,2)`
entries. -/
theorem claim_c1 (coder item : Str) (labels : List Str)
    (h : 2 ≤ labels.length) :
    compute_agreement_scores (labels.map (fun l => (coder, item, l))) =
      some
        ((pairs2 labels).countP (fun p =>
            setEq (extract_system_ids_from_label p.1)
              (extract_system_ids_from_label p.2) && decide (p.1 = p.2)),
         (pairs2 labels).countP (fun p =>
            setEq (extract_system_ids_from_label p.1)
              (extract_system_ids_from_label p.2)),
         labels.countP (fun l => l.contains '='),
         labels.length) ∧
    (pairs2 labels).length = labels.length.choose 2 := by
  constructor
  · have hne : labels.map (fun l => (coder, item, l)) ≠ [] := by
      intro hmap
      have hlen := congrArg List.length hmap
      rw [List.length_map] at hlen
      simp only [List.length_nil] at hlen
      omega
    have hgroup :
        groupVals (fun j : Judgment => j.2.1) (fun j => j.2.2)
          (labels.map (fun l => (coder, item, l))) =
        [(item, labels)] := by
      rw [groupVals_const_key (fun j => j.2.2) (fun x hx => by
        rcases List.mem_map.mp hx with ⟨l, _, rfl⟩
        rfl) hne]
      simp [List.map_map]
      exact (List.map_id labels).symm ▸ rfl
    rw [compute_agreement_scores, aggBody, computeCaught]
    unfold aggCounts
    rw [hgroup]
    simp only [List.foldl_cons, List.foldl_nil]
    unfold groupCounts
    rw [if_pos (by omega)]
    rw [foldl_pair_counts
      (fun p : Str × Str =>
        setEq (extract_system_ids_from_label p.1)
          (extract_system_ids_from_label p.2) = true)
      (fun p : Str × Str => p.1 = p.2) (pairs2 labels) 0 0]
    simp [addCounts]
  · exact pairs2_length labels

/-! ### Claim C8: the intra-annotator branch -/

theorem filterMap_ite {p : α → Prop} [DecidablePred p] (f : α → β) :
    ∀ l : List α,
      l.filterMap (fun x => if p x then none else some (f x)) =
        (l.filter (fun x => decide (¬ p x))).map f
  | [] => rfl
  | x :: xs => by
    rw [List.filterMap_cons, List.filter_cons]
    by_cases hx : p x
    · simp [hx, filterMap_ite f xs]
    · simp [hx, filterMap_ite f xs]

/-- Decimal digit character back to its value. -/
def charToDigit (c : Char) : ℕ := c.toNat - 48

theorem charToDigit_roundtrip : ∀ d < 10, charToDigit (Char.ofNat (48 + d)) = d := by
  decide

theorem natDigits_decode (k : ℕ) :
    Nat.ofDigits 10 (((natDigits k).map charToDigit).reverse) = k := by
  by_cases hk : k = 0
  · subst hk
    decide
  · have hrev : ((natDigits k).map charToDigit).reverse =
        (Nat.digits 10 k).map (fun d => charToDigit (Char.ofNat (48 + d))) := by
      rw [natDigits, if_neg hk]
      simp [List.map_map, Function.comp]
    rw [hrev]
    have hmap : (Nat.digits 10 k).map (fun d => charToDigit (Char.ofNat (48 + d))) =
        (Nat.digits 10 k).map id :=
      List.map_congr_left (fun d hd =>
        charToDigit_roundtrip d (Nat.digits_lt_base (by norm_num) hd))
    rw [hmap, List.map_id]
    exact Nat.ofDigits_digits 10 k

theorem natDigits_inj : Function.Injective natDigits := by
  intro m n h
  have hm := natDigits_decode m
  rw [h, natDigits_decode n] at hm
  exact hm.symm

/-- Claim C8: in intra-annotator mode a segment's judgments are grouped
by coder; a coder group is submitted as a unit of work exactly when some
item of that coder has at least two of the coder's judgments; the
submitted unit is the coder's judgments relabeled with the synthetic
coder ids `coder-d` (the occurrence index within the item), these ids
are pairwise distinct inside one item, and the units are consumed by the
same `compute_agreement_scores` used for inter-annotator agreement. -/
theorem claim_c8 (js : List Judgment) :
    intraUnits js =
      ((groupVals (fun j : Judgment => j.1) (fun j => j) js).filter
        (fun cg : Str × List Judgment =>
        decide (∃ it ∈ groupVals (fun j : Judgment => j.2.1) (fun j => j.2.2) cg.2,
          2 ≤ it.2.length))).map (fun cg =>
            renameCoder cg.1
              (groupVals (fun j : Judgment => j.2.1) (fun j => j.2.2) cg.2)) ∧
    (∀ (coder itm : Str) (ls : List Str),
      ((renameCoder coder [(itm, ls)]).map (fun t => t.1)).Nodup) ∧
    intraResults js = (intraUnits js).map compute_agreement_scores := by
  refine ⟨?_, ?_, rfl⟩
  · rw [intraUnits,
      filterMap_ite (fun cg : Str × List Judgment =>
        renameCoder cg.1 (groupVals (fun j : Judgment => j.2.1) (fun j => j.2.2) cg.2))]
    congr 1
    apply List.filter_congr
    intro cg _
    rw [decide_eq_decide]
    rw [List.all_eq_true]
    constructor
    · intro hno
      by_contra hex
      push_neg at hex
      exact hno (fun it hit => by
        have := hex it hit
        simp only [decide_eq_true_eq]
        omega)
    · intro hex hall
      rcases hex with ⟨it, hit, h2⟩
      have := hall it hit
      simp only [decide_eq_true_eq] at this
      omega
  · intro coder itm ls
    have hre : (renameCoder coder [(itm, ls)]).map (fun t => t.1) =
        (List.range ls.length).map (fun d => coder ++ '-' :: natDigits d) := by
      rw [renameCoder]
      simp only [List.map_cons, List.map_nil, List.flatten,
        List.append_nil, List.map_map]
      rw [show ((fun t : Str × Str × Str => t.1) ∘
          fun dl : ℕ × Str => (coder ++ '-' :: natDigits dl.1, itm, dl.2)) =
          (fun d => coder ++ '-' :: natDigits d) ∘ Prod.fst from rfl]
      rw [← List.map_map, List.enum_map_fst]
    rw [hre]
    apply List.Nodup.map ?_ (List.nodup_range ls.length)
    intro d1 d2 hd
    have h1 : '-' :: natDigits d1 = '-' :: natDigits d2 :=
      List.append_cancel_left hd
    have h2 : natDigits d1 = natDigits d2 := (List.cons.injEq _ _ _ _).mp h1 |>.2
    exact natDigits_inj h2

/-! ### Claim C9: the hard-coded language-pair tuple -/

/-- Any entry of the accumulated report list comes from the accumulator
or from one of the folded language pairs. -/
theorem runPairs_fold_mem (rd : String → List (List Judgment)) :
    ∀ (lps : List String) (acc res : List (String × (ℚ × ℚ × ℚ))),
      List.foldlM
        (fun acc lp =>
          match processPair (sumScores ((rd lp).map aggCounts)) with
          | Except.error e => Except.error e
          | Except.ok none => Except.ok acc
          | Except.ok (some stats) => Except.ok (acc ++ [(lp, stats)]))
        acc lps = Except.ok res →
      ∀ x ∈ res, x ∈ acc ∨ x.1 ∈ lps
  | [], acc, res, h, x, hx => by
    simp only [List.foldlM_nil] at h
    have hres : acc = res := by
      injection h
    exact Or.inl (hres ▸ hx)
  | lp :: lps, acc, res, h, x, hx => by
    rw [List.foldlM_cons] at h
    cases hp : processPair (sumScores ((rd lp).map aggCounts)) with
    | error e =>
      rw [hp] at h
      exact Except.noConfusion h
    | ok o =>
      rw [hp] at h
      cases o with
      | none =>
        rcases runPairs_fold_mem rd lps acc res h x hx with h1 | h1
        · exact Or.inl h1
        · exact Or.inr (List.mem_cons_of_mem lp h1)
      | some stats =>
        rcases runPairs_fold_mem rd lps (acc ++ [(lp, stats)]) res h x hx
          with h1 | h1
        · rcases List.mem_append.mp h1 with h2 | h2
          · exact Or.inl h2
          · have hxl : x = (lp, stats) := by simpa using h2
            exact Or.inr (hxl ▸ List.mem_cons_self lp lps)
        · exact Or.inr (List.mem_cons_of_mem lp h1)

/-- The fold over the language-pair tuple only looks at the data of the
folded pairs. -/
theorem runPairs_fold_congr (rd1 rd2 : String → List (List Judgment)) :
    ∀ (lps : List String) (acc : List (String × (ℚ × ℚ × ℚ))),
      (∀ lp ∈ lps, rd1 lp = rd2 lp) →
      List.foldlM
        (fun acc lp =>
          match processPair (sumScores ((rd1 lp).map aggCounts)) with
          | Except.error e => Except.error e
          | Except.ok none => Except.ok acc
          | Except.ok (some stats) => Except.ok (acc ++ [(lp, stats)]))
        acc lps =
      List.foldlM
        (fun acc lp =>
          match processPair (sumScores ((rd2 lp).map aggCounts)) with
          | Except.error e => Except.error e
          | Except.ok none => Except.ok acc
          | Except.ok (some stats) => Except.ok (acc ++ [(lp, stats)]))
        acc lps
  | [], acc, _ => rfl
  | lp :: lps, acc, h => by
    rw [List.foldlM_cons, List.foldlM_cons]
    have hlp : rd1 lp = rd2 lp := h lp (List.mem_cons_self lp lps)
    rw [hlp]
    have htail : ∀ q ∈ lps, rd1 q = rd2 q :=
      fun q hq => h q (List.mem_cons_of_mem lp hq)
    cases hp : processPair (sumScores ((rd2 lp).map aggCounts)) with
    | error e => rfl
    | ok o =>
      cases o with
      | none =>
        exact runPairs_fold_congr rd1 rd2 lps acc htail
      | some stats =>
        exact runPairs_fold_congr rd1 rd2 lps (acc ++ [(lp, stats)]) htail

/-- Claim C9: only the twelve hard-coded language pairs are processed
and reported.  The code `hin` (Hindi) is in the language-name lookup,
yet `Hindi-English` is not in the tuple; every reported line's language
pair belongs to the tuple; and the report depends only on the judgments
of the twelve tuple pairs — data under any other language pair
(e.g. `Hindi-English`) is silently dropped. -/
theorem claim_c9 :
    (("hin", "Hindi") ∈ LANGUAGE_CODE_TO_NAME ∧
      "Hindi-English" ∉ language_pairs) ∧
    (∀ rd res, runPairs rd = Except.ok res → ∀ x ∈ res, x.1 ∈ language_pairs) ∧
    (∀ rd1 rd2, (∀ lp ∈ language_pairs, rd1 lp = rd2 lp) →
      runPairs rd1 = runPairs rd2) := by
  refine ⟨⟨by decide, by decide⟩, ?_, ?_⟩
  · intro rd res h x hx
    rcases runPairs_fold_mem rd language_pairs [] res h x hx with h1 | h1
    · simp at h1
    · exact h1
  · intro rd1 rd2 h
    exact runPairs_fold_congr rd1 rd2 language_pairs [] h

theorem claim_c9_witness :
    runPairs (fun _ => []) =
      runPairs (fun lp =>
        if lp = "Hindi-English" then [[(['j'], ['i'], ['x', '=', 'y'])]]
        else []) :=
  claim_c9.2.2 (fun _ => [])
    (fun lp =>
      if lp = "Hindi-English" then [[(['j'], ['i'], ['x', '=', 'y'])]]
      else [])
    (by decide)

/-! ### Claim C7: the catch-all wrapper of the aggregator -/

/-- Claim C7: every outcome of the try-block of
`compute_agreement_scores` — including a raised exception, modelled as
`Except.error` — is handled inside the function: an exception yields the
`None` result (no counts contribution) instead of propagating, a
completed body yields its counts, and the source function is exactly
this wrapper applied to its try-block. -/
theorem claim_c7 (body : Except Unit Counts) :
    (∀ e, body = Except.error e → computeCaught body = none) ∧
    (∀ c, body = Except.ok c → computeCaught body = some c) ∧
    (∀ data : List Judgment,
      compute_agreement_scores data = computeCaught (aggBody data)) := by
  refine ⟨?_, ?_, fun _ => rfl⟩
  · intro e he
    subst he
    rfl
  · intro c hc
    subst hc
    rfl

theorem claim_c7_witness :
    computeCaught (Except.error ()) = none :=
  (claim_c7 (Except.error ())).1 () rfl

/-! ### Claim C4: the Pairwise Rank Encoder -/

theorem pairs2_map (f : α → β) :
    ∀ l : List α, pairs2 (l.map f) = (pairs2 l).map (fun p => (f p.1, f p.2))
  | [] => rfl
  | x :: xs => by
    simp [pairs2, pairs2_map f xs, List.map_map, Function.comp]

theorem pairs2_mem {p : α × α} :
    ∀ {l : List α}, p ∈ pairs2 l → p.1 ∈ l ∧ p.2 ∈ l
  | x :: xs, h => by
    rcases List.mem_append.mp h with h | h
    · rcases List.mem_map.mp h with ⟨y, hy, rfl⟩
      exact ⟨List.mem_cons_self x xs, List.mem_cons_of_mem x hy⟩
    · have := pairs2_mem h
      exact ⟨List.mem_cons_of_mem x this.1, List.mem_cons_of_mem x this.2⟩

theorem list_map_getD (d : α) (g : α → β) :
    ∀ l : List α, l.map g = (List.range l.length).map (fun i => g (l.getD i d))
  | [] => rfl
  | x :: xs => by
    rw [List.length_cons, List.range_succ_eq_map]
    simp only [List.map_cons, List.map_map, List.getD_cons_zero]
    rw [list_map_getD d g xs]
    simp [List.map_map, Function.comp]

/-- Pair enumeration of a list is that of its index range, looked up. -/
theorem pairs2_index (d : α) :
    ∀ l : List α, pairs2 l =
      (pairs2 (List.range l.length)).map
        (fun ab => (l.getD ab.1 d, l.getD ab.2 d))
  | [] => rfl
  | x :: xs => by
    rw [List.length_cons, List.range_succ_eq_map]
    simp only [pairs2, List.map_append, List.map_map]
    rw [pairs2_map Nat.succ (List.range xs.length)]
    simp only [List.map_map]
    congr 1
    · rw [list_map_getD d (fun y => (x, y)) xs]
      simp [Function.comp]
    · rw [pairs2_index d xs]
      simp [List.map_map, Function.comp]

theorem zip_getD {l1 : List α} {l2 : List β} {i : ℕ} (h1 : i < l1.length)
    (h2 : i < l2.length) (d1 : α) (d2 : β) :
    (l1.zip l2).getD i (d1, d2) = (l1.getD i d1, l2.getD i d2) := by
  have hz : i < (l1.zip l2).length := by
    rw [List.length_zip]
    omega
  rw [List.getD_eq_getElem _ _ hz, List.getD_eq_getElem _ _ h1,
    List.getD_eq_getElem _ _ h2]
  exact List.getElem_zip

theorem filterMap_congr {f g : α → Option β} :
    ∀ {l : List α}, (∀ a ∈ l, f a = g a) → l.filterMap f = l.filterMap g
  | [], _ => rfl
  | x :: xs, h => by
    rw [List.filterMap_cons, List.filterMap_cons,
      h x (List.mem_cons_self x xs),
      filterMap_congr (fun a ha => h a (List.mem_cons_of_mem x ha))]

theorem length_filterMap_eq_countP (f : α → Option β) :
    ∀ l : List α, (l.filterMap f).length = l.countP (fun a => (f a).isSome)
  | [] => rfl
  | x :: xs => by
    rw [List.filterMap_cons, List.countP_cons]
    cases hfx : f x with
    | none => simp [hfx, length_filterMap_eq_countP f xs]
    | some b => simp [hfx, length_filterMap_eq_countP f xs]

/-- Claim C4: with as many rankings as systems, the row loop emits, for
every unordered pair of distinct system slots taken by combinatorial
index, a judgment whose label is `a>b`, `a<b` or `a=b` according to the
numeric rank comparison; a pair with a `-1` sentinel rank contributes no
judgment (the emitted list has exactly one judgment per sentinel-free
pair), and a row with fewer than two systems contributes nothing. -/
theorem claim_c4 (seg judge : Str) (systems : List Str) (rankings : List Int)
    (hlen : rankings.length = systems.length) :
    encodeRow seg judge systems rankings =
      encodeRowSpec seg judge (systems.zip rankings) ∧
    (systems.length < 2 → encodeRow seg judge systems rankings = []) ∧
    (2 ≤ systems.length →
      (encodeRow seg judge systems rankings).length =
        (pairs2 (systems.zip rankings)).countP
          (fun p => decide (p.1.2 ≠ -1) && decide (p.2.2 ≠ -1))) := by
  have hzlen : (systems.zip rankings).length = systems.length := by
    rw [List.length_zip, hlen, min_self]
  have hmain : encodeRow seg judge systems rankings =
      encodeRowSpec seg judge (systems.zip rankings) := by
    unfold encodeRow encodeRowSpec
    rw [hzlen]
    by_cases hlt : systems.length < 2
    · rw [if_pos hlt, if_pos hlt]
    · rw [if_neg hlt, if_neg hlt]
      rw [pairs2_index (([], -1) : Str × Int) (systems.zip rankings), hzlen,
        List.filterMap_map]
      apply filterMap_congr
      intro ab hab
      have hma := pairs2_mem hab
      have ha : ab.1 < systems.length := List.mem_range.mp hma.1
      have hb : ab.2 < systems.length := List.mem_range.mp hma.2
      have hra : ab.1 < rankings.length := by omega
      have hrb : ab.2 < rankings.length := by omega
      simp only [Function.comp, zip_getD ha hra, zip_getD hb hrb]
  refine ⟨hmain, ?_, ?_⟩
  · intro hlt
    unfold encodeRow
    rw [if_pos hlt]
  · intro hge
    rw [hmain]
    unfold encodeRowSpec
    rw [hzlen, if_neg (by omega)]
    rw [length_filterMap_eq_countP]
    apply List.countP_congr
    intro p _
    by_cases h1 : p.1.2 = -1
    · simp [h1]
    · by_cases h2 : p.2.2 = -1
      · simp [h1, h2]
      · simp [h1, h2]

theorem claim_c4_witness :
    encodeRow ['1'] ['j'] [['x'], ['y']] [1, -1] =
      encodeRowSpec ['1'] ['j'] ([['x'], ['y']].zip [1, -1]) ∧
    encodeRow ['1'] ['j'] [['x'], ['y']] [1, -1] = [] :=
  ⟨(claim_c4 ['1'] ['j'] [['x'], ['y']] [1, -1] (by decide)).1, by decide⟩

theorem claim_c1_witness :
    compute_agreement_scores
      ((['x','>','y'] :: ['x','>','y'] :: ['y','<','x'] :: []).map
        (fun l => (['j'], ['i'], l))) = some (1, 3, 0, 3) ∧
    compute_agreement_scores
      ((['x','=','y'] :: ['x','>','y'] :: ['x','=','y'] :: []).map
        (fun l => (['j'], ['i'], l))) = some (1, 3, 2, 3) :=
  ⟨((claim_c1 ['j'] ['i']
      (['x','>','y'] :: ['x','>','y'] :: ['y','<','x'] :: [])
      (by decide)).1).trans (by decide),
   ((claim_c1 ['j'] ['i']
      (['x','=','y'] :: ['x','>','y'] :: ['x','=','y'] :: [])
      (by decide)).1).trans (by decide)⟩

theorem claim_c3_witness :
    extract_system_ids_from_label (['b'] ++ '>' :: ['a']) =
      extract_system_ids_from_label (['a'] ++ '<' :: ['b']) :=
  (claim_c3 ['b'] ['a'] ⟨by decide, by decide, by decide⟩ (by decide) ⟨by decide, by decide, by decide⟩ (by decide)).1
